import Mathlib

/-!
# Verification of the tendermint-rs light-client supervisor / fork-detection core

A shallow embedding, in Lean 4, of the parts of the `tendermint-rs` light
client that the specification covers: the fork detector
(`light-client/src/fork_detector.rs`), the supervisor
(`light-client/src/supervisor.rs`), the evidence reporter
(`light-client/src/evidence.rs`), the verification state
(`light-client/src/state.rs`), the persistent sled-backed light store
(`light-client/src/store/sled.rs`) and account ids
(`tendermint/src/account.rs`).

Conventions of the embedding: machine integers become `Nat`; opaque data
(header bytes, commits, peer ids, network addresses, hashes) become `Nat`
tokens; fallible operations return `Except`; the I/O collaborators
(peer fetches, RPC broadcasts, the inner light-client verifier) become
explicit function parameters, mirroring the `Box<dyn ...>` trait objects
of the source; stateful code threads its state explicitly.  Components of
the crate that are outside the provided sources but needed here
(`ErrorKind`, `PeerList`, `MemoryStore`, `get_or_fetch_block`) are
modelled from the specification, and are marked as such in their doc
comments.
-/

namespace Tendermint

/-- Lifecycle status of a light block, from `light-client/src/types.rs`
(listed in the spec §3): `{Unverified, Verified, Trusted, Failed}`. -/
inductive Status where
  | unverified
  | verified
  | trusted
  | failed
deriving DecidableEq, Repr

/-- `Status::iter()`: the list of all statuses, used by `SledStore::update`
to clear the other statuses. -/
def Status.iterAll : List Status :=
  [.unverified, .verified, .trusted, .failed]

/-- A light block, from `light-client/src/types.rs` (spec §3): a signed
header (header data plus commit), validator sets (absorbed into the opaque
header data, since no claim inspects them), and the originating peer.
`headerData` stands for the header, `commit` for the commit; the signed
header is the pair of the two. -/
structure LightBlockM where
  height : Nat
  headerData : Nat
  commit : Nat
  provider : Nat
deriving DecidableEq, Repr

/-- `LightBlock::signed_header()`: the header together with its commit. -/
def LightBlockM.signedHeader (lb : LightBlockM) : Nat × Nat :=
  (lb.headerData, lb.commit)

/-! ## SledStore (`light-client/src/store/sled.rs`)

The sled store keeps four key-value trees, one per status, each keyed by
height.  A `KeyValueDb<Height, TMLightBlock>` is modelled as an
association list from heights to blocks in which `insert` overwrites and
`remove` deletes the key.  The claims about `SledStore` assume the
underlying key-value operations succeed (the source discards their errors
with `.ok()`), so the model makes them total. -/

/-- Lookup in a key-value tree keyed by height. -/
def kvGet (db : List (Nat × LightBlockM)) (h : Nat) : Option LightBlockM :=
  (db.find? (fun e => e.1 = h)).map (·.2)

/-- Insert into a key-value tree: the new binding shadows (and removes)
any previous binding of the same height. -/
def kvInsert (db : List (Nat × LightBlockM)) (h : Nat) (lb : LightBlockM) :
    List (Nat × LightBlockM) :=
  (h, lb) :: db.filter (fun e => e.1 ≠ h)

/-- Remove a key from a key-value tree. -/
def kvRemove (db : List (Nat × LightBlockM)) (h : Nat) :
    List (Nat × LightBlockM) :=
  db.filter (fun e => e.1 ≠ h)

/-- `SledStore`: four per-status trees (`unverified_db`, `verified_db`,
`trusted_db`, `failed_db`). -/
structure SledStoreM where
  unverifiedDb : List (Nat × LightBlockM)
  verifiedDb : List (Nat × LightBlockM)
  trustedDb : List (Nat × LightBlockM)
  failedDb : List (Nat × LightBlockM)
deriving DecidableEq, Repr

/-- `SledStore::db(status)`: select the tree for a status. -/
def SledStoreM.db (s : SledStoreM) : Status → List (Nat × LightBlockM)
  | .unverified => s.unverifiedDb
  | .verified => s.verifiedDb
  | .trusted => s.trustedDb
  | .failed => s.failedDb

/-- Replace the tree of one status, leaving the other three unchanged. -/
def SledStoreM.setDb (s : SledStoreM) (st : Status)
    (db : List (Nat × LightBlockM)) : SledStoreM :=
  match st with
  | .unverified => { s with unverifiedDb := db }
  | .verified => { s with verifiedDb := db }
  | .trusted => { s with trustedDb := db }
  | .failed => { s with failedDb := db }

/-- `LightStore::get` for `SledStore`. -/
def SledStoreM.get (s : SledStoreM) (h : Nat) (st : Status) :
    Option LightBlockM :=
  kvGet (s.db st) h

/-- `LightStore::remove` for `SledStore`. -/
def SledStoreM.remove (s : SledStoreM) (h : Nat) (st : Status) : SledStoreM :=
  s.setDb st (kvRemove (s.db st) h)

/-- `LightStore::insert` for `SledStore`. -/
def SledStoreM.insert (s : SledStoreM) (lb : LightBlockM) (st : Status) :
    SledStoreM :=
  s.setDb st (kvInsert (s.db st) lb.height lb)

/-- `SledStore::update(light_block, status)`: remove the block's height
from every tree of a different status, then insert it into the tree of the
given status — exactly the source's loop over `Status::iter()` followed by
the insert. -/
def SledStoreM.update (s : SledStoreM) (lb : LightBlockM) (st : Status) :
    SledStoreM :=
  let cleared := Status.iterAll.foldl
    (fun acc other => if st = other then acc else acc.remove lb.height other) s
  cleared.insert lb st

/-! ## Account ids (`tendermint/src/account.rs`)

An account `Id` wraps 20 raw bytes.  `Display` renders each byte with the
`{:02X}` format (two upper-case hex digits); `FromStr` decodes a string
first as upper-case hex, then as lower-case hex, and requires exactly 20
decoded bytes, failing with `Kind::Parse` otherwise.  Bytes are `Nat`s
below 256, strings are lists of `Char`. -/

namespace Account

/-- `LENGTH`: size of an account id in bytes. -/
def LENGTH : Nat := 20

/-- The `Kind::Parse` error of `tendermint/src/error.rs`. -/
inductive ParseErr where
  | parse
deriving DecidableEq, Repr

/-- Upper-case hex digit for a nibble, as produced by the `{:02X}` format
(digits `0`-`9` are code points 48-57, `A`-`F` are 65-70). -/
def upperHexChar (n : Nat) : Char :=
  if n < 10 then Char.ofNat (48 + n) else Char.ofNat (55 + n)

/-- `impl Display for Id`: each byte rendered as two upper-case hex
digits, high nibble first. -/
def displayId (bytes : List Nat) : List Char :=
  bytes.foldr (fun b acc => upperHexChar (b / 16) :: upperHexChar (b % 16) :: acc) []

/-- Value of an upper-case hex digit (`subtle_encoding::hex::decode_upper`
accepts only `0`-`9` and `A`-`F`). -/
def upperHexVal (c : Char) : Option Nat :=
  if 48 ≤ c.toNat ∧ c.toNat ≤ 57 then some (c.toNat - 48)
  else if 65 ≤ c.toNat ∧ c.toNat ≤ 70 then some (c.toNat - 55)
  else none

/-- Value of a lower-case hex digit (`subtle_encoding::hex::decode`
accepts only `0`-`9` and `a`-`f`). -/
def lowerHexVal (c : Char) : Option Nat :=
  if 48 ≤ c.toNat ∧ c.toNat ≤ 57 then some (c.toNat - 48)
  else if 97 ≤ c.toNat ∧ c.toNat ≤ 102 then some (c.toNat - 87)
  else none

/-- Hex decoding with a given digit table: pairs of digits become bytes;
an odd-length input or a non-digit character fails. -/
def decodeWith (hexVal : Char → Option Nat) : List Char → Option (List Nat)
  | [] => some []
  | [_] => none
  | c1 :: c2 :: rest =>
    match hexVal c1, hexVal c2, decodeWith hexVal rest with
    | some hi, some lo, some bs => some ((16 * hi + lo) :: bs)
    | _, _, _ => none

/-- `hex::decode_upper(s).or_else(|_| hex::decode(s))`: try upper-case
hex first, then lower-case hex. -/
def hexDecodeEither (s : List Char) : Option (List Nat) :=
  (decodeWith upperHexVal s).orElse (fun _ => decodeWith lowerHexVal s)

/-- `impl FromStr for Id`: decode as upper- or lower-case hex, then
require exactly `LENGTH` bytes. -/
def idFromStr (s : List Char) : Except ParseErr (List Nat) :=
  match hexDecodeEither s with
  | none => .error .parse
  | some bytes => if bytes.length = LENGTH then .ok bytes else .error .parse

end Account

/-! ## Error kinds

`light-client/src/errors.rs` is not among the provided sources; its shape
is modelled from spec §7. -/

/-- Modelled from the spec: the sub-kinds of `IoError` (spec §7: "Io(IoError)
— transport failure; sub-kind Timeout distinguished"). -/
inductive IoErrKind where
  | timeout
  | other (code : Nat)
deriving DecidableEq, Repr

/-- Modelled from the spec: `ErrorKind` of `light-client/src/errors.rs`
(spec §7 error taxonomy).  `fuelExhausted` is not a source error kind; it
is the modelling device that stands for non-termination of the supervisor's
unbounded retry recursion when the step budget runs out. -/
inductive ErrKind where
  | ioErr (e : IoErrKind)
  | noTrustedState (st : Status)
  | noPrimary
  | noWitnesses
  | targetLowerThanTrustedState (target trusted : Nat)
  | trustedStateOutsideTrustingPeriod
  | insufficientVotingPower
  | invalidSignature
  | invalidValidatorSet
  | invalidCommit
  | nonMonotonicBftTime
  | headerFromTheFuture
  | forkDetected (peers : List Nat)
  | channelDisconnected
  | fuelExhausted
deriving DecidableEq, Repr

/-- Modelled from the spec: `ErrorExt::has_expired` — true exactly for the
expiry error (spec §7 `TrustedStateOutsideTrustingPeriod { .. }` "(expired)"). -/
def ErrKind.hasExpired : ErrKind → Bool
  | .trustedStateOutsideTrustingPeriod => true
  | _ => false

/-- Modelled from the spec: `ErrorExt::is_timeout` — true exactly for a
transport timeout (spec §7: sub-kind `Timeout` of `Io`). -/
def ErrKind.isTimeout : ErrKind → Bool
  | .ioErr .timeout => true
  | _ => false

/-! ## Fork detector (`light-client/src/fork_detector.rs`) -/

/-- `Fork<LB>`: outcome of examining one hash-distinct witness. -/
inductive ForkM where
  | forked (primary witness : LightBlockM)
  | faulty (block : LightBlockM) (e : ErrKind)
  | timeout (provider : Nat) (e : ErrKind)
deriving DecidableEq, Repr

/-- `ForkDetection<LB>`: result of fork detection. -/
inductive ForkDetectionM where
  | detected (forks : List ForkM)
  | notDetected
deriving DecidableEq, Repr

/-- Modelled from the spec: the in-memory `MemoryStore`
(`light-client/src/store/memory.rs` is not among the provided sources;
spec §3: a `LightStore` is a mapping `(Height, Status) → LightBlock`).
An association list in which the most recent insert at a (height, status)
pair shadows older ones. -/
abbrev MemStore := List (Nat × Status × LightBlockM)

/-- `LightStore::get` on the in-memory store. -/
def memGet (s : MemStore) (h : Nat) (st : Status) : Option LightBlockM :=
  (s.find? (fun e => e.1 = h ∧ e.2.1 = st)).map (·.2.2)

/-- `LightStore::insert` on the in-memory store. -/
def memInsert (s : MemStore) (lb : LightBlockM) (st : Status) : MemStore :=
  (lb.height, st, lb) :: s

/-- A witness `Instance` as the fork detector uses it: the `Io` collaborator
of its light client (`fetch_light_block`), and its light client's
`verify_to_target`, which may inspect the scratch store it is given.
Both are opaque collaborators here, mirroring the `Box<dyn ...>` fields. -/
structure WitnessM where
  fetchBlock : Nat → Except ErrKind LightBlockM
  verifyAtTarget : Nat → MemStore → Except ErrKind LightBlockM

/-- Modelled from the spec: `LightClient::get_or_fetch_block`
(`light-client/src/light_client.rs` is not among the provided sources;
spec §4.3: "returns any block at height h already in the store (Verified,
Trusted, or Unverified); else fetches from the peer, stores it Unverified,
and returns it"). -/
def getOrFetchBlock (w : WitnessM) (h : Nat) (s : MemStore) :
    Except ErrKind (LightBlockM × MemStore) :=
  match memGet s h .verified with
  | some b => .ok (b, s)
  | none =>
    match memGet s h .trusted with
    | some b => .ok (b, s)
    | none =>
      match memGet s h .unverified with
      | some b => .ok (b, s)
      | none =>
        match w.fetchBlock h with
        | .ok b => .ok (b, memInsert s b .unverified)
        | .error e => .error e

/-- Audit of one witness check inside `detect_forks`: the scratch store
as it stood when `get_or_fetch_block` was called, and the (block, status)
pairs inserted into it afterwards, before re-verification (empty when the
hashes matched). -/
structure WitnessAudit where
  storeAtFetch : MemStore
  seeded : List (LightBlockM × Status)
deriving DecidableEq, Repr

/-- The loop body of `ProdForkDetector::detect_forks`, one iteration per
witness, returning both the accumulated `Fork` entries and the per-witness
audit of scratch-store usage.  Mirrors the source: a fresh empty scratch
state per witness; fetch; hash comparison; on mismatch, insert the trusted
block as `Verified` and the witness block as `Unverified`, re-verify to
the primary's height, and classify the outcome. -/
def detectForksAux (hashHeader : Nat → Nat) (vb tb : LightBlockM) :
    List WitnessM → Except ErrKind (List ForkM × List WitnessAudit)
  | [] => .ok ([], [])
  | w :: ws =>
    let state0 : MemStore := []
    match getOrFetchBlock w vb.height state0 with
    | .error e => .error e
    | .ok (wb, s1) =>
      if hashHeader vb.headerData = hashHeader wb.headerData then
        match detectForksAux hashHeader vb tb ws with
        | .error e => .error e
        | .ok (forks, audits) => .ok (forks, ⟨state0, []⟩ :: audits)
      else
        let s2 := memInsert s1 tb .verified
        let s3 := memInsert s2 wb .unverified
        let entry : ForkM :=
          match w.verifyAtTarget vb.height s3 with
          | .ok _ => .forked vb wb
          | .error e =>
            if e.hasExpired then .forked vb wb
            else if e.isTimeout then .timeout wb.provider e
            else .faulty wb e
        match detectForksAux hashHeader vb tb ws with
        | .error e => .error e
        | .ok (forks, audits) =>
          .ok (entry :: forks,
            ⟨state0, [(tb, .verified), (wb, .unverified)]⟩ :: audits)

/-- `ProdForkDetector::detect_forks`: run the per-witness loop and wrap
the entries as `Detected` when any were produced, `NotDetected` otherwise. -/
def detectForks (hashHeader : Nat → Nat) (vb tb : LightBlockM)
    (ws : List WitnessM) : Except ErrKind ForkDetectionM :=
  match detectForksAux hashHeader vb tb ws with
  | .error e => .error e
  | .ok (forks, _) =>
    if forks.isEmpty then .ok .notDetected else .ok (.detected forks)

/-- The audits produced by a run of `detect_forks` (projection of
`detectForksAux`), used to state where the scratch store is seeded. -/
def detectForksAudits (hashHeader : Nat → Nat) (vb tb : LightBlockM)
    (ws : List WitnessM) : List WitnessAudit :=
  match detectForksAux hashHeader vb tb ws with
  | .error _ => []
  | .ok (_, audits) => audits

/-- The scratch store at the moment a hash-distinct witness block `wb` is
re-verified: the fetched block as `Unverified` (left by
`get_or_fetch_block` on the empty store), then the trusted block inserted
as `Verified`, then `wb` inserted as `Unverified`. -/
def seededScratchStore (tb wb : LightBlockM) : MemStore :=
  memInsert (memInsert (memInsert [] wb .unverified) tb .verified) wb .unverified

/-- Per-witness classification as the claim states it: no entry when the
fetched block's header hash equals the primary's; otherwise an entry
determined by re-verifying the witness block to the primary's height —
`Forked` on success, `Forked` on an expiry failure, `Timeout` on a timeout
failure, `Faulty` on any other failure. -/
def classifyWitness (hashHeader : Nat → Nat) (vb tb : LightBlockM)
    (w : WitnessM) : Option ForkM :=
  match w.fetchBlock vb.height with
  | .error _ => none
  | .ok wb =>
    if hashHeader vb.headerData = hashHeader wb.headerData then none
    else some (match w.verifyAtTarget vb.height (seededScratchStore tb wb) with
      | .ok _ => .forked vb wb
      | .error e =>
        if e.hasExpired then .forked vb wb
        else if e.isTimeout then .timeout wb.provider e
        else .faulty wb e)

/-! ## Light client state (`light-client/src/state.rs`)

`State` owns a `Box<dyn LightStore>` and a `VerificationTrace`
(`HashMap<Height, HashSet<Height>>`).  The store is opaque here — only
its `get` is used by `get_trace` — so it is a query function; the trace is
a list of (target, height) pairs, read as set membership. -/

/-- `State<LB>`: the light store (as its `get` query) and the
verification trace. -/
structure StateM where
  lightStoreGet : Nat → Status → Option LightBlockM
  verificationTrace : List (Nat × Nat)

/-- `State::trace_block(target_height, height)`: record that the block at
`height` was needed to verify the block at `target_height`.  The source
declares the precondition `height <= target_height`. -/
def StateM.traceBlock (st : StateM) (targetHeight h : Nat) : StateM :=
  { st with verificationTrace := (targetHeight, h) :: st.verificationTrace }

/-- The set of heights recorded in the trace for a target height. -/
def StateM.traceHeights (st : StateM) (t : Nat) : List Nat :=
  st.verificationTrace.filterMap (fun p => if p.1 = t then some p.2 else none)

/-- `State::get_trace(target_height)`: look every traced height up in the
store with status `Verified`, keep the hits, sort ascending by height and
reverse. -/
def StateM.getTrace (st : StateM) (t : Nat) : List LightBlockM :=
  (((st.traceHeights t).filterMap
      (fun h => st.lightStoreGet h Status.verified)).mergeSort
    (fun a b => a.height ≤ b.height)).reverse

/-! ## Evidence reporting (`light-client/src/evidence.rs`) -/

/-- `Evidence`, as built by the reporter: a pair of conflicting signed
headers (`Evidence::ConflictingHeaders`). -/
inductive EvidenceM where
  | conflictingHeaders (sh1 sh2 : Nat × Nat)
deriving DecidableEq, Repr

/-- `ProdEvidenceReporter::build_conflicting_headers_evidence`. -/
def buildConflictingHeadersEvidence (sh1 sh2 : Nat × Nat) : EvidenceM :=
  .conflictingHeaders sh1 sh2

/-- `ProdEvidenceReporter`: the constructor-supplied peer map from peer
ids to network addresses. -/
structure ProdEvidenceReporterM where
  peerMap : List (Nat × Nat)

/-- `ProdEvidenceReporter::rpc_client_for`: look the peer up in the peer
map and build an RPC client for its address.  The source `unwrap`s the
lookup; `none` here marks exactly that panic. -/
def ProdEvidenceReporterM.rpcClientFor (r : ProdEvidenceReporterM)
    (peer : Nat) : Option Nat :=
  (r.peerMap.find? (fun e => e.1 = peer)).map (·.2)

/-- `ProdEvidenceReporter::report`: broadcast the evidence through the
client for the peer; `broadcast` stands for the blocking RPC call
(`block_on(client.broadcast_evidence(e))`), returning the receipt hash on
success.  A `none` result marks the panic of the `unwrap` inside
`rpc_client_for`. -/
def ProdEvidenceReporterM.report (r : ProdEvidenceReporterM)
    (broadcast : Nat → EvidenceM → Except IoErrKind Nat)
    (e : EvidenceM) (peer : Nat) : Option (Except IoErrKind Nat) :=
  match r.rpcClientFor peer with
  | none => none
  | some addr => some (broadcast addr e)

/-! ## Supervisor (`light-client/src/supervisor.rs`)

`Supervisor::verify` is recursive (it retries after demoting the primary
and after soft forks); the model uses an explicit `fuel` budget for that
recursion and returns `ErrKind.fuelExhausted` when it runs out — every
claim proved about it is a safety property over the emitted event trace,
indifferent to where the budget cuts the run.  The collaborators behind
`Box<dyn ...>` fields (the primary's light client, the fork detector, the
evidence reporter) and the primary's store query are environment
functions. -/

/-- Modelled from the spec: `PeerList` (`light-client/src/peer_list.rs` is
not among the provided sources; spec §3/§4.6): one primary, ordered
witnesses, full-node pool, faulty set.  Peers are ids. -/
structure PeerListM where
  primary : Nat
  witnesses : List Nat
  fullNodes : List Nat
  faulty : List Nat
deriving DecidableEq, Repr

/-- Modelled from the spec: `PeerList::replace_faulty_primary` (spec §4.6:
"move current primary to the faulty set; promote the first witness (by
insertion order) to primary; if no witnesses, fail `NoWitnesses`"). -/
def PeerListM.replaceFaultyPrimary (pl : PeerListM) :
    Except ErrKind PeerListM :=
  match pl.witnesses with
  | [] => .error .noWitnesses
  | w :: ws => .ok ⟨w, ws, pl.fullNodes, pl.primary :: pl.faulty⟩

/-- Modelled from the spec: `PeerList::replace_faulty_witness(id)` (spec
§4.6: "move id to faulty; if a full node is available, promote one to
witness"). -/
def PeerListM.replaceFaultyWitness (pl : PeerListM) (peer : Nat) :
    PeerListM :=
  let ws := pl.witnesses.filter (fun x => x ≠ peer)
  match pl.fullNodes with
  | [] => ⟨pl.primary, ws, [], peer :: pl.faulty⟩
  | f :: fs => ⟨pl.primary, ws ++ [f], fs, peer :: pl.faulty⟩

/-- The supervisor's collaborators: the primary's
`verify_to_target`/`verify_to_highest` (`none` meaning highest), the
primary's `latest_trusted` store query, the boxed fork detector, and the
boxed evidence reporter's `report`. -/
structure SupEnvM where
  primaryVerify : Nat → Option Nat → Except ErrKind LightBlockM
  latestTrusted : Nat → Option LightBlockM
  runDetector : LightBlockM → LightBlockM → List Nat →
    Except ErrKind ForkDetectionM
  report : EvidenceM → Nat → Except IoErrKind Nat

/-- Observable actions of one `Supervisor::verify` call, in program
order. -/
inductive EventM where
  | replacePrimary (old promoted : Nat)
  | detectErr (vb : LightBlockM)
  | detectDetected (vb : LightBlockM) (forks : List ForkM)
  | detectNotDetected (vb : LightBlockM)
  | reportEv (provider : Nat) (ev : EvidenceM)
  | replaceWitness (pid : Nat)
  | trustBlock (lb : LightBlockM)
deriving DecidableEq, Repr

/-- `Supervisor::report_evidence`: build conflicting-headers evidence from
the two signed headers and submit it to the witness's provider, mapping a
transport failure into `ErrorKind::Io`. -/
def reportEvidence (env : SupEnvM) (provider : Nat)
    (primary witness : LightBlockM) : List EventM × Except ErrKind Unit :=
  let ev := buildConflictingHeadersEvidence primary.signedHeader
    witness.signedHeader
  match env.report ev provider with
  | .ok _ => ([.reportEv provider ev], .ok ())
  | .error ioe => ([.reportEv provider ev], .error (.ioErr ioe))

/-- `Supervisor::process_forks`: report evidence for each `Forked` entry
(collecting the forked providers, aborting on a reporting error), and
replace the witness for each `Timeout`/`Faulty` entry.  Returns the
updated peer list, the emitted events, and the forked providers. -/
def processForks (env : SupEnvM) (pl : PeerListM) :
    List ForkM → PeerListM × List EventM × Except ErrKind (List Nat)
  | [] => (pl, [], .ok [])
  | ForkM.forked primary witness :: rest =>
    let provider := witness.provider
    let step := reportEvidence env provider primary witness
    match step.2 with
    | .error e => (pl, step.1, .error e)
    | .ok _ =>
      let next := processForks env pl rest
      (next.1, step.1 ++ next.2.1,
        match next.2.2 with
        | .ok forked => .ok (provider :: forked)
        | .error e => .error e)
  | ForkM.timeout provider _ :: rest =>
    let next := processForks env (pl.replaceFaultyWitness provider) rest
    (next.1, EventM.replaceWitness provider :: next.2.1, next.2.2)
  | ForkM.faulty block _ :: rest =>
    let next := processForks env (pl.replaceFaultyWitness block.provider) rest
    (next.1, EventM.replaceWitness block.provider :: next.2.1, next.2.2)

/-- `Supervisor::verify` (covering `verify_to_highest` /
`verify_to_target` via the optional height): primary verification; on
failure demote the primary and retry; on success read the trust anchor,
run fork detection (failing `NoWitnesses` first when there are no
witnesses), process any detected forks — surfacing `ForkDetected` when a
hard fork remains, retrying when only witnesses were replaced — and
otherwise accept the verified block as trusted.  Returns the final peer
list, the event trace, and the outcome. -/
def supervisorVerify (env : SupEnvM) :
    Nat → PeerListM → Option Nat →
      PeerListM × List EventM × Except ErrKind LightBlockM
  | 0, pl, _ => (pl, [], .error .fuelExhausted)
  | fuel + 1, pl, height =>
    match env.primaryVerify pl.primary height with
    | .error _ =>
      match pl.replaceFaultyPrimary with
      | .error e => (pl, [], .error e)
      | .ok pl' =>
        let next := supervisorVerify env fuel pl' height
        (next.1, EventM.replacePrimary pl.primary pl'.primary :: next.2.1,
          next.2.2)
    | .ok vb =>
      match env.latestTrusted pl.primary with
      | none => (pl, [], .error (.noTrustedState .trusted))
      | some tb =>
        if pl.witnesses.isEmpty then (pl, [], .error .noWitnesses)
        else
          match env.runDetector vb tb pl.witnesses with
          | .error e => (pl, [.detectErr vb], .error e)
          | .ok (ForkDetectionM.detected forks) =>
            let pf := processForks env pl forks
            match pf.2.2 with
            | .error e =>
              (pf.1, EventM.detectDetected vb forks :: pf.2.1, .error e)
            | .ok forked =>
              if forked.isEmpty then
                let next := supervisorVerify env fuel pf.1 height
                (next.1,
                  EventM.detectDetected vb forks :: pf.2.1 ++ next.2.1,
                  next.2.2)
              else
                (pf.1, EventM.detectDetected vb forks :: pf.2.1,
                  .error (.forkDetected forked))
          | .ok ForkDetectionM.notDetected =>
            (pl, [.detectNotDetected vb, .trustBlock vb], .ok vb)

/-- The provider recorded for a `Forked` entry (the witness's provider). -/
def forkedProvider : ForkM → Option Nat
  | .forked _ w => some w.provider
  | _ => none

/-- The report expected for a `Forked` entry: addressed to the witness's
provider, with evidence built from the primary's and the witness's signed
headers. -/
def expectedReport : ForkM → Option (Nat × EvidenceM)
  | .forked p w => some (w.provider,
      buildConflictingHeadersEvidence p.signedHeader w.signedHeader)
  | _ => none

/-- Projection of an event onto a report call. -/
def reportOf : EventM → Option (Nat × EvidenceM)
  | .reportEv p ev => some (p, ev)
  | _ => none

/-- Projection of an event onto a witness replacement. -/
def replacedWitnessOf : EventM → Option Nat
  | .replaceWitness p => some p
  | _ => none

/-- The witness replaced for a `Timeout`/`Faulty` entry. -/
def faultyTimeoutProvider : ForkM → Option Nat
  | .timeout p _ => some p
  | .faulty b _ => some b.provider
  | _ => none

/-- The peer-list effect of one fork entry in `process_forks`:
`Timeout`/`Faulty` replace the witness, `Forked` leaves the list
unchanged. -/
def witnessStep (pl : PeerListM) : ForkM → PeerListM
  | .timeout p _ => pl.replaceFaultyWitness p
  | .faulty b _ => pl.replaceFaultyWitness b.provider
  | .forked _ _ => pl

/-- Traces in which every `trustBlock` event is immediately preceded by a
`detectNotDetected` event for the same block. -/
inductive TrustGuarded : List EventM → Prop
  | nil : TrustGuarded []
  | consOther (e : EventM) (he : ∀ lb, e ≠ EventM.trustBlock lb)
      (tr : List EventM) : TrustGuarded tr → TrustGuarded (e :: tr)
  | consPair (vb : LightBlockM) (tr : List EventM) : TrustGuarded tr →
      TrustGuarded (EventM.detectNotDetected vb :: EventM.trustBlock vb :: tr)

end Tendermint

namespace Tendermint

/-! ## Supporting lemmas -/

theorem Account.upperHexVal_upperHexChar (n : Nat) (h : n < 16) :
    Account.upperHexVal (Account.upperHexChar n) = some n := by
  interval_cases n <;> decide

theorem Account.decodeWith_displayId (bytes : List Nat)
    (h : ∀ b ∈ bytes, b < 256) :
    Account.decodeWith Account.upperHexVal (Account.displayId bytes) =
      some bytes := by
  induction bytes with
  | nil => rfl
  | cons b rest ih =>
    have hb : b < 256 := h b (by simp)
    have h1 : b / 16 < 16 := by omega
    have h2 : b % 16 < 16 := by omega
    have hrest : Account.decodeWith Account.upperHexVal
        (Account.displayId rest) = some rest :=
      ih (fun x hx => h x (by simp [hx]))
    have hshape : Account.displayId (b :: rest) =
        Account.upperHexChar (b / 16) :: Account.upperHexChar (b % 16) ::
          Account.displayId rest := rfl
    rw [hshape]
    simp only [Account.decodeWith, Account.upperHexVal_upperHexChar _ h1,
      Account.upperHexVal_upperHexChar _ h2, hrest]
    have hby : 16 * (b / 16) + b % 16 = b := by omega
    rw [hby]

theorem detectForksAux_eq_filterMap (hashHeader : Nat → Nat)
    (vb tb : LightBlockM) (ws : List WitnessM)
    (hfetch : ∀ w ∈ ws, ∃ b, w.fetchBlock vb.height = Except.ok b) :
    ∃ audits, detectForksAux hashHeader vb tb ws =
      .ok (ws.filterMap (classifyWitness hashHeader vb tb), audits) := by
  induction ws with
  | nil => exact ⟨[], rfl⟩
  | cons w ws ih =>
    obtain ⟨b, hb⟩ := hfetch w (by simp)
    obtain ⟨audits, haux⟩ := ih (fun x hx => hfetch x (by simp [hx]))
    have hget : getOrFetchBlock w vb.height [] =
        .ok (b, memInsert [] b .unverified) := by
      simp [getOrFetchBlock, memGet, hb]
    by_cases hh : hashHeader vb.headerData = hashHeader b.headerData
    · refine ⟨⟨[], []⟩ :: audits, ?_⟩
      simp [detectForksAux, hget, hh, haux, List.filterMap_cons,
        classifyWitness, hb]
    · refine ⟨⟨[], [(tb, .verified), (b, .unverified)]⟩ :: audits, ?_⟩
      simp [detectForksAux, hget, hh, haux, List.filterMap_cons,
        classifyWitness, hb, seededScratchStore, memInsert]

theorem detectForksAux_audits (hashHeader : Nat → Nat) (vb tb : LightBlockM) :
    ∀ (ws : List WitnessM) (forks : List ForkM) (audits : List WitnessAudit),
      detectForksAux hashHeader vb tb ws = .ok (forks, audits) →
      ∀ a ∈ audits, a.storeAtFetch = ([] : MemStore) ∧
        (a.seeded = [] ∨
          ∃ wb, a.seeded = [(tb, Status.verified), (wb, Status.unverified)]) := by
  intro ws
  induction ws with
  | nil =>
    intro forks audits h a ha
    simp only [detectForksAux, Except.ok.injEq, Prod.mk.injEq] at h
    rw [← h.2] at ha
    simp at ha
  | cons w ws ih =>
    intro forks audits h a ha
    simp only [detectForksAux] at h
    cases hget : getOrFetchBlock w vb.height [] with
    | error e => rw [hget] at h; exact absurd h (by simp)
    | ok p =>
      obtain ⟨wb, s1⟩ := p
      rw [hget] at h
      by_cases hh : hashHeader vb.headerData = hashHeader wb.headerData
      · simp only [hh, if_true] at h
        cases haux : detectForksAux hashHeader vb tb ws with
        | error e => rw [haux] at h; exact absurd h (by simp)
        | ok q =>
          obtain ⟨forks0, audits0⟩ := q
          rw [haux] at h
          simp only [Except.ok.injEq, Prod.mk.injEq] at h
          rw [← h.2] at ha
          rcases List.mem_cons.mp ha with rfl | hmem
          · exact ⟨rfl, Or.inl rfl⟩
          · exact ih forks0 audits0 haux a hmem
      · simp only [hh, if_false] at h
        cases haux : detectForksAux hashHeader vb tb ws with
        | error e => rw [haux] at h; exact absurd h (by simp)
        | ok q =>
          obtain ⟨forks0, audits0⟩ := q
          rw [haux] at h
          simp only [Except.ok.injEq, Prod.mk.injEq] at h
          rw [← h.2] at ha
          rcases List.mem_cons.mp ha with rfl | hmem
          · exact ⟨rfl, Or.inr ⟨wb, rfl⟩⟩
          · exact ih forks0 audits0 haux a hmem

theorem trustGuarded_append (l1 l2 : List EventM) (h1 : TrustGuarded l1)
    (h2 : TrustGuarded l2) : TrustGuarded (l1 ++ l2) := by
  induction h1 with
  | nil => exact h2
  | consOther e he tr _ ih => exact TrustGuarded.consOther e he _ ih
  | consPair vb tr _ ih => exact TrustGuarded.consPair vb _ ih

theorem trustGuarded_of_no_trust (tr : List EventM)
    (h : ∀ e ∈ tr, ∀ lb, e ≠ EventM.trustBlock lb) : TrustGuarded tr := by
  induction tr with
  | nil => exact TrustGuarded.nil
  | cons e rest ih =>
    exact TrustGuarded.consOther e (h e (by simp)) rest
      (ih (fun x hx => h x (by simp [hx])))

theorem processForks_no_trustBlock (env : SupEnvM) :
    ∀ (forks : List ForkM) (pl : PeerListM),
      ∀ e ∈ (processForks env pl forks).2.1,
        ∀ lb, e ≠ EventM.trustBlock lb := by
  intro forks
  induction forks with
  | nil => intro pl e he; simp [processForks] at he
  | cons f rest ih =>
    intro pl e he lb
    cases f with
    | forked p w =>
      simp only [processForks] at he
      cases hr : env.report (buildConflictingHeadersEvidence p.signedHeader
          w.signedHeader) w.provider with
      | error ioe =>
        simp only [reportEvidence, hr] at he
        simp at he
        simp [he]
      | ok v =>
        simp only [reportEvidence, hr] at he
        simp only [List.cons_append, List.nil_append, List.mem_cons] at he
        rcases he with rfl | he
        · simp
        · exact ih pl e he lb
    | timeout prov err =>
      simp only [processForks, List.mem_cons] at he
      rcases he with rfl | he
      · simp
      · exact ih (pl.replaceFaultyWitness prov) e he lb
    | faulty b err =>
      simp only [processForks, List.mem_cons] at he
      rcases he with rfl | he
      · simp
      · exact ih (pl.replaceFaultyWitness b.provider) e he lb

theorem processForks_ok_spec (env : SupEnvM) :
    ∀ (forks : List ForkM) (pl : PeerListM) (forked : List Nat),
      (processForks env pl forks).2.2 = Except.ok forked →
      forked = forks.filterMap forkedProvider ∧
      (processForks env pl forks).2.1.filterMap reportOf =
        forks.filterMap expectedReport := by
  intro forks
  induction forks with
  | nil =>
    intro pl forked h
    simp only [processForks, Except.ok.injEq] at h
    simp [processForks, ← h]
  | cons f rest ih =>
    intro pl forked h
    cases f with
    | forked p w =>
      simp only [processForks] at h ⊢
      cases hr : env.report (buildConflictingHeadersEvidence p.signedHeader
          w.signedHeader) w.provider with
      | error ioe =>
        rw [show reportEvidence env w.provider p w =
            ([EventM.reportEv w.provider (buildConflictingHeadersEvidence
              p.signedHeader w.signedHeader)],
             Except.error (ErrKind.ioErr ioe)) by
          simp [reportEvidence, hr]] at h
        simp at h
      | ok v =>
        rw [show reportEvidence env w.provider p w =
            ([EventM.reportEv w.provider (buildConflictingHeadersEvidence
              p.signedHeader w.signedHeader)],
             Except.ok ()) by simp [reportEvidence, hr]] at h ⊢
        cases hnext : (processForks env pl rest).2.2 with
        | error e =>
          rw [hnext] at h
          simp at h
        | ok fk =>
          rw [hnext] at h
          simp only [Except.ok.injEq] at h
          obtain ⟨h1, h2⟩ := ih pl fk hnext
          subst h
          constructor
          · simp [List.filterMap_cons, forkedProvider, h1]
          · simp [List.filterMap_cons, reportOf, expectedReport, h2]
    | timeout prov err =>
      simp only [processForks] at h ⊢
      obtain ⟨h1, h2⟩ := ih (pl.replaceFaultyWitness prov) forked h
      constructor
      · simpa [List.filterMap_cons, forkedProvider] using h1
      · simp [List.filterMap_cons, reportOf, expectedReport, h2]
    | faulty b err =>
      simp only [processForks] at h ⊢
      obtain ⟨h1, h2⟩ := ih (pl.replaceFaultyWitness b.provider) forked h
      constructor
      · simpa [List.filterMap_cons, forkedProvider] using h1
      · simp [List.filterMap_cons, reportOf, expectedReport, h2]

theorem processForks_peerlist (env : SupEnvM) :
    ∀ (forks : List ForkM) (pl : PeerListM) (forked : List Nat),
      (processForks env pl forks).2.2 = Except.ok forked →
      (processForks env pl forks).1 = forks.foldl witnessStep pl ∧
      (processForks env pl forks).2.1.filterMap replacedWitnessOf =
        forks.filterMap faultyTimeoutProvider := by
  intro forks
  induction forks with
  | nil =>
    intro pl forked h
    simp [processForks]
  | cons f rest ih =>
    intro pl forked h
    cases f with
    | forked p w =>
      simp only [processForks] at h ⊢
      cases hr : env.report (buildConflictingHeadersEvidence p.signedHeader
          w.signedHeader) w.provider with
      | error ioe =>
        rw [show reportEvidence env w.provider p w =
            ([EventM.reportEv w.provider (buildConflictingHeadersEvidence
              p.signedHeader w.signedHeader)],
             Except.error (ErrKind.ioErr ioe)) by
          simp [reportEvidence, hr]] at h
        simp at h
      | ok v =>
        rw [show reportEvidence env w.provider p w =
            ([EventM.reportEv w.provider (buildConflictingHeadersEvidence
              p.signedHeader w.signedHeader)],
             Except.ok ()) by simp [reportEvidence, hr]] at h ⊢
        cases hnext : (processForks env pl rest).2.2 with
        | error e =>
          rw [hnext] at h
          simp at h
        | ok fk =>
          obtain ⟨h1, h2⟩ := ih pl fk hnext
          constructor
          · simpa [List.foldl_cons, witnessStep] using h1
          · simp [List.filterMap_cons, replacedWitnessOf,
              faultyTimeoutProvider, h2]
    | timeout prov err =>
      simp only [processForks] at h ⊢
      obtain ⟨h1, h2⟩ := ih (pl.replaceFaultyWitness prov) forked h
      constructor
      · simpa [List.foldl_cons, witnessStep] using h1
      · simp [List.filterMap_cons, replacedWitnessOf,
          faultyTimeoutProvider, h2]
    | faulty b err =>
      simp only [processForks] at h ⊢
      obtain ⟨h1, h2⟩ := ih (pl.replaceFaultyWitness b.provider) forked h
      constructor
      · simpa [List.foldl_cons, witnessStep] using h1
      · simp [List.filterMap_cons, replacedWitnessOf,
          faultyTimeoutProvider, h2]

theorem processForks_error_ioErr (env : SupEnvM) :
    ∀ (forks : List ForkM) (pl : PeerListM) (e : ErrKind),
      (processForks env pl forks).2.2 = Except.error e →
      ∃ ioe, e = ErrKind.ioErr ioe := by
  intro forks
  induction forks with
  | nil => intro pl e h; simp [processForks] at h
  | cons f rest ih =>
    intro pl e h
    cases f with
    | forked p w =>
      simp only [processForks] at h
      cases hr : env.report (buildConflictingHeadersEvidence p.signedHeader
          w.signedHeader) w.provider with
      | error ioe =>
        rw [show reportEvidence env w.provider p w =
            ([EventM.reportEv w.provider (buildConflictingHeadersEvidence
              p.signedHeader w.signedHeader)],
             Except.error (ErrKind.ioErr ioe)) by
          simp [reportEvidence, hr]] at h
        simp only [Except.error.injEq] at h
        exact ⟨ioe, h.symm⟩
      | ok v =>
        rw [show reportEvidence env w.provider p w =
            ([EventM.reportEv w.provider (buildConflictingHeadersEvidence
              p.signedHeader w.signedHeader)],
             Except.ok ()) by simp [reportEvidence, hr]] at h
        cases hnext : (processForks env pl rest).2.2 with
        | error e2 =>
          rw [hnext] at h
          simp only [Except.error.injEq] at h
          obtain ⟨ioe, rfl⟩ := ih pl e2 hnext
          exact ⟨ioe, by rw [← h]⟩
        | ok fk =>
          rw [hnext] at h
          simp at h
    | timeout prov err =>
      simp only [processForks] at h
      exact ih (pl.replaceFaultyWitness prov) e h
    | faulty b err =>
      simp only [processForks] at h
      exact ih (pl.replaceFaultyWitness b.provider) e h

theorem supervisorVerify_trustGuarded (env : SupEnvM) :
    ∀ (fuel : Nat) (pl : PeerListM) (height : Option Nat),
      TrustGuarded (supervisorVerify env fuel pl height).2.1 := by
  intro fuel
  induction fuel with
  | zero => intro pl height; exact TrustGuarded.nil
  | succ fuel ih =>
    intro pl height
    cases hpv : env.primaryVerify pl.primary height with
    | error e =>
      cases hrp : pl.replaceFaultyPrimary with
      | error e2 =>
        have heq : (supervisorVerify env (fuel + 1) pl height).2.1 = [] := by
          simp [supervisorVerify, hpv, hrp]
        rw [heq]; exact TrustGuarded.nil
      | ok pl' =>
        have heq : (supervisorVerify env (fuel + 1) pl height).2.1 =
            EventM.replacePrimary pl.primary pl'.primary ::
              (supervisorVerify env fuel pl' height).2.1 := by
          simp [supervisorVerify, hpv, hrp]
        rw [heq]
        exact TrustGuarded.consOther _ (by simp) _ (ih pl' height)
    | ok vb =>
      cases hlt : env.latestTrusted pl.primary with
      | none =>
        have heq : (supervisorVerify env (fuel + 1) pl height).2.1 = [] := by
          simp [supervisorVerify, hpv, hlt]
        rw [heq]; exact TrustGuarded.nil
      | some tb =>
        by_cases hw : pl.witnesses.isEmpty = true
        · have heq : (supervisorVerify env (fuel + 1) pl height).2.1 = [] := by
            simp [supervisorVerify, hpv, hlt, hw]
          rw [heq]; exact TrustGuarded.nil
        · cases hdet : env.runDetector vb tb pl.witnesses with
          | error e =>
            have heq : (supervisorVerify env (fuel + 1) pl height).2.1 =
                [EventM.detectErr vb] := by
              simp [supervisorVerify, hpv, hlt, hw, hdet]
            rw [heq]
            exact TrustGuarded.consOther _ (by simp) _ TrustGuarded.nil
          | ok outcome =>
            cases outcome with
            | notDetected =>
              have heq : (supervisorVerify env (fuel + 1) pl height).2.1 =
                  [EventM.detectNotDetected vb, EventM.trustBlock vb] := by
                simp [supervisorVerify, hpv, hlt, hw, hdet]
              rw [heq]
              exact TrustGuarded.consPair vb _ TrustGuarded.nil
            | detected forks =>
              cases hpf : (processForks env pl forks).2.2 with
              | error e =>
                have heq : (supervisorVerify env (fuel + 1) pl height).2.1 =
                    EventM.detectDetected vb forks ::
                      (processForks env pl forks).2.1 := by
                  simp [supervisorVerify, hpv, hlt, hw, hdet, hpf]
                rw [heq]
                exact TrustGuarded.consOther _ (by simp) _
                  (trustGuarded_of_no_trust _
                    (processForks_no_trustBlock env forks pl))
              | ok forked =>
                by_cases hfk : forked.isEmpty = true
                · have heq : (supervisorVerify env (fuel + 1) pl height).2.1 =
                      EventM.detectDetected vb forks ::
                        ((processForks env pl forks).2.1 ++
                          (supervisorVerify env fuel
                            (processForks env pl forks).1 height).2.1) := by
                    simp [supervisorVerify, hpv, hlt, hw, hdet, hpf, hfk]
                  rw [heq]
                  exact TrustGuarded.consOther _ (by simp) _
                    (trustGuarded_append _ _
                      (trustGuarded_of_no_trust _
                        (processForks_no_trustBlock env forks pl))
                      (ih _ height))
                · have heq : (supervisorVerify env (fuel + 1) pl height).2.1 =
                      EventM.detectDetected vb forks ::
                        (processForks env pl forks).2.1 := by
                    simp [supervisorVerify, hpv, hlt, hw, hdet, hpf, hfk]
                  rw [heq]
                  exact TrustGuarded.consOther _ (by simp) _
                    (trustGuarded_of_no_trust _
                      (processForks_no_trustBlock env forks pl))

theorem trustGuarded_last_before (tr : List EventM) (htg : TrustGuarded tr) :
    ∀ (l1 l2 : List EventM) (vb : LightBlockM),
      tr = l1 ++ EventM.trustBlock vb :: l2 →
      l1.getLast? = some (EventM.detectNotDetected vb) := by
  induction htg with
  | nil =>
    intro l1 l2 vb h
    exact absurd h (by simp)
  | consOther e he tr htg ih =>
    intro l1 l2 vb h
    cases l1 with
    | nil =>
      simp only [List.nil_append, List.cons.injEq] at h
      exact absurd h.1 (he vb)
    | cons x l1' =>
      simp only [List.cons_append, List.cons.injEq] at h
      obtain ⟨rfl, h2⟩ := h
      have hlast := ih l1' l2 vb h2
      cases l1' with
      | nil => simp at hlast
      | cons y rest => rw [List.getLast?_cons_cons]; exact hlast
  | consPair vb0 tr htg ih =>
    intro l1 l2 vb h
    cases l1 with
    | nil =>
      simp only [List.nil_append, List.cons.injEq] at h
      exact absurd h.1 (by simp)
    | cons x l1' =>
      cases l1' with
      | nil =>
        simp only [List.cons_append, List.nil_append, List.cons.injEq] at h
        obtain ⟨rfl, h2, h3⟩ := h
        have hvb : vb0 = vb := by
          injection h2
        simp [hvb]
      | cons y rest =>
        simp only [List.cons_append, List.cons.injEq] at h
        obtain ⟨rfl, rfl, h3⟩ := h
        have hlast := ih rest l2 vb h3
        cases rest with
        | nil => simp at hlast
        | cons z rest' =>
          rw [List.getLast?_cons_cons, List.getLast?_cons_cons]
          exact hlast

theorem kvGet_kvInsert_self (db : List (Nat × LightBlockM)) (h : Nat)
    (lb : LightBlockM) : kvGet (kvInsert db h lb) h = some lb := by
  simp [kvGet, kvInsert, List.find?]

theorem kvGet_kvRemove_self (db : List (Nat × LightBlockM)) (h : Nat) :
    kvGet (kvRemove db h) h = none := by
  have hfind : (kvRemove db h).find? (fun e => e.1 = h) = none := by
    rw [List.find?_eq_none]
    intro x hx
    simp only [kvRemove, List.mem_filter] at hx
    simpa using hx.2
  simp [kvGet, hfind]

/-- C6: after `SledStore::update(lb, s)` (with the underlying key-value
operations succeeding, as the model assumes), `get(lb.height, s)` returns
`Some(lb)`, and `get(lb.height, s')` returns `None` for every status
`s' ≠ s`: at most one status is recorded per height after an update. -/
theorem sledStore_update_exclusive (s : SledStoreM) (lb : LightBlockM)
    (st st' : Status) (hne : st' ≠ st) :
    (s.update lb st).get lb.height st = some lb ∧
    (s.update lb st).get lb.height st' = none := by
  cases st <;> cases st' <;>
    simp_all [SledStoreM.update, Status.iterAll, SledStoreM.insert,
      SledStoreM.remove, SledStoreM.get, SledStoreM.db, SledStoreM.setDb,
      kvGet_kvInsert_self, kvGet_kvRemove_self]

/-- Witness for C6 at a concrete store, block and pair of statuses. -/
theorem sledStore_update_exclusive_witness :
    Status.verified ≠ Status.trusted ∧
    ((SledStoreM.mk [] [] [] []).update ⟨5, 1, 2, 3⟩ Status.trusted).get 5
        Status.trusted = some ⟨5, 1, 2, 3⟩ ∧
    ((SledStoreM.mk [] [] [] []).update ⟨5, 1, 2, 3⟩ Status.trusted).get 5
        Status.verified = none := by
  refine ⟨by decide, ?_⟩
  exact sledStore_update_exclusive (SledStoreM.mk [] [] [] []) ⟨5, 1, 2, 3⟩
    Status.trusted Status.verified (by decide)

/-- C10: rendering an account id with `Display` (two upper-case hex digits
per byte) and parsing it back with `FromStr` round-trips; moreover
`FromStr` succeeds exactly on strings that decode, as upper- or lower-case
hex, to exactly `LENGTH = 20` bytes, and returns a `Parse` error on every
other input. -/
theorem accountId_display_fromStr_roundtrip (bytes : List Nat)
    (hlen : bytes.length = Account.LENGTH) (hlt : ∀ b ∈ bytes, b < 256) :
    Account.idFromStr (Account.displayId bytes) = Except.ok bytes ∧
    (∀ s bs, Account.idFromStr s = Except.ok bs ↔
      (Account.hexDecodeEither s = some bs ∧ bs.length = Account.LENGTH)) ∧
    (∀ s, (¬ ∃ bs, Account.hexDecodeEither s = some bs ∧
        bs.length = Account.LENGTH) →
      Account.idFromStr s = Except.error Account.ParseErr.parse) := by
  refine ⟨?_, ?_, ?_⟩
  · simp [Account.idFromStr, Account.hexDecodeEither,
      Account.decodeWith_displayId bytes hlt, Option.orElse, hlen]
  · intro s bs
    unfold Account.idFromStr
    cases h : Account.hexDecodeEither s with
    | none => simp
    | some l =>
      by_cases hl : l.length = Account.LENGTH <;> simp [hl] <;> aesop
  · intro s hn
    unfold Account.idFromStr
    cases h : Account.hexDecodeEither s with
    | none => simp
    | some l =>
      have : ¬ l.length = Account.LENGTH := fun hc => hn ⟨l, h, hc⟩
      simp [this]

/-- Witness for C10 at a concrete 20-byte account id. -/
theorem accountId_display_fromStr_roundtrip_witness :
    (List.replicate 20 171).length = Account.LENGTH ∧
    Account.idFromStr (Account.displayId (List.replicate 20 171)) =
      Except.ok (List.replicate 20 171) := by
  refine ⟨by decide, ?_⟩
  exact (accountId_display_fromStr_roundtrip (List.replicate 20 171)
    (by decide) (by decide)).1

/-- C1: in `ProdForkDetector::detect_forks` (when every witness fetch
succeeds), a witness whose fetched block has a header hash equal to the
primary's produces no entry; every hash-distinct witness produces the
entry obtained by re-verifying its block to the primary's height —
`Forked` on success, `Forked` on an expiry failure, `Timeout(witness)` on
a timeout failure, `Faulty(witness)` on any other failure — and the call
returns `Detected` of the produced entries if there is at least one, and
`NotDetected` otherwise (in particular `NotDetected` when all witnesses
agree by hash). -/
theorem detectForks_classification (hashHeader : Nat → Nat)
    (vb tb : LightBlockM) (ws : List WitnessM)
    (hfetch : ∀ w ∈ ws, ∃ b, w.fetchBlock vb.height = Except.ok b) :
    detectForks hashHeader vb tb ws =
      .ok (if ws.filterMap (classifyWitness hashHeader vb tb) = []
        then ForkDetectionM.notDetected
        else ForkDetectionM.detected
          (ws.filterMap (classifyWitness hashHeader vb tb))) := by
  obtain ⟨audits, haux⟩ := detectForksAux_eq_filterMap hashHeader vb tb ws hfetch
  cases hE : ws.filterMap (classifyWitness hashHeader vb tb) with
  | nil => rw [hE] at haux; simp [detectForks, haux]
  | cons a l => rw [hE] at haux; simp [detectForks, haux]

/-- Witness for C1: one hash-agreeing witness and one hash-distinct
witness whose block re-verifies, yielding `Detected` with a single
`Forked` entry. -/
theorem detectForks_classification_witness :
    detectForks (fun h => h) ⟨10, 7, 0, 1⟩ ⟨1, 3, 0, 1⟩
      [⟨fun _ => Except.ok ⟨10, 7, 5, 2⟩, fun _ _ => Except.ok ⟨10, 7, 5, 2⟩⟩,
       ⟨fun _ => Except.ok ⟨10, 8, 5, 3⟩, fun _ _ => Except.ok ⟨10, 8, 5, 3⟩⟩] =
      Except.ok (ForkDetectionM.detected
        [ForkM.forked ⟨10, 7, 0, 1⟩ ⟨10, 8, 5, 3⟩]) := by
  have h := detectForks_classification (fun h => h) ⟨10, 7, 0, 1⟩ ⟨1, 3, 0, 1⟩
    [⟨fun _ => Except.ok ⟨10, 7, 5, 2⟩, fun _ _ => Except.ok ⟨10, 7, 5, 2⟩⟩,
     ⟨fun _ => Except.ok ⟨10, 8, 5, 3⟩, fun _ _ => Except.ok ⟨10, 8, 5, 3⟩⟩]
    (by
      intro w hw
      rcases List.mem_cons.mp hw with rfl | hw'
      · exact ⟨_, rfl⟩
      · rcases List.mem_cons.mp hw' with rfl | hw''
        · exact ⟨_, rfl⟩
        · simp at hw'')
  rw [h]
  rfl

/-- Counterexample for C2: in a concrete run of `detect_forks` with one
hash-distinct witness, the scratch store passed to `get_or_fetch_block`
is empty — looking up the trusted block (height 1) with status `Trusted`
in it yields `None` — so the store is not seeded with the trusted block
as `Trusted` before the fetch; the seeding that does happen afterwards
tags the trusted block `Verified`. -/
theorem forkDetector_seeding_counterexample :
    ¬ (∀ a ∈ detectForksAudits (fun h => h) ⟨10, 7, 0, 1⟩ ⟨1, 3, 0, 1⟩
          [⟨fun _ => Except.ok ⟨10, 8, 5, 3⟩,
            fun _ _ => Except.ok ⟨10, 8, 5, 3⟩⟩],
        memGet a.storeAtFetch 1 Status.trusted = some ⟨1, 3, 0, 1⟩) := by
  intro hcl
  have hmem : (⟨[], [(⟨1, 3, 0, 1⟩, Status.verified),
      (⟨10, 8, 5, 3⟩, Status.unverified)]⟩ : WitnessAudit) ∈
      detectForksAudits (fun h => h) ⟨10, 7, 0, 1⟩ ⟨1, 3, 0, 1⟩
        [⟨fun _ => Except.ok ⟨10, 8, 5, 3⟩,
          fun _ _ => Except.ok ⟨10, 8, 5, 3⟩⟩] := by
    exact List.mem_singleton.mpr rfl
  have hfalse := hcl _ hmem
  simp [memGet] at hfalse

/-- C2 (amended): for every witness examined by
`ProdForkDetector::detect_forks`, the witness's block at the primary's
height is fetched via that witness's own light client using a fresh
in-memory store that is empty at the moment of the fetch; only when the
hashes differ is the store then seeded — with the trusted block inserted
with status `Verified` and the fetched witness block as `Unverified` —
before re-verification. -/
theorem forkDetector_scratch_store_amended (hashHeader : Nat → Nat)
    (vb tb : LightBlockM) (ws : List WitnessM) :
    ∀ a ∈ detectForksAudits hashHeader vb tb ws,
      a.storeAtFetch = ([] : MemStore) ∧
      (a.seeded = [] ∨
        ∃ wb, a.seeded = [(tb, Status.verified), (wb, Status.unverified)]) := by
  intro a ha
  unfold detectForksAudits at ha
  cases haux : detectForksAux hashHeader vb tb ws with
  | error e => rw [haux] at ha; simp at ha
  | ok p =>
    obtain ⟨forks, audits⟩ := p
    rw [haux] at ha
    exact detectForksAux_audits hashHeader vb tb ws forks audits haux a ha

/-- C7: `trace_block` (under its declared precondition
`height ≤ target_height`, and as the only operation adding entries)
preserves the invariant that every height recorded for a target is at most
that target; and every block returned by `get_trace(t)` is a block that
the light store returned for status `Verified` (at a traced height, hence
a height ≤ t) at the moment `get_trace` was called. -/
theorem state_trace_invariant (st : StateM) (target h : Nat)
    (hinv : ∀ p ∈ st.verificationTrace, p.2 ≤ p.1) (hpre : h ≤ target) :
    (∀ p ∈ (st.traceBlock target h).verificationTrace, p.2 ≤ p.1) ∧
    (∀ t, ∀ b ∈ st.getTrace t,
      ∃ h0, h0 ≤ t ∧ st.lightStoreGet h0 Status.verified = some b) := by
  constructor
  · intro p hp
    rcases List.mem_cons.mp hp with rfl | hp0
    · exact hpre
    · exact hinv p hp0
  · intro t b hb
    unfold StateM.getTrace at hb
    rw [List.mem_reverse, List.mem_mergeSort] at hb
    obtain ⟨h0, hh0, hget⟩ := List.mem_filterMap.mp hb
    refine ⟨h0, ?_, hget⟩
    unfold StateM.traceHeights at hh0
    obtain ⟨p, hp, hpe⟩ := List.mem_filterMap.mp hh0
    by_cases hc : p.1 = t
    · rw [if_pos hc] at hpe
      have hb2 : p.2 = h0 := by simpa using hpe
      calc h0 = p.2 := hb2.symm
        _ ≤ p.1 := hinv p hp
        _ = t := hc
    · rw [if_neg hc] at hpe
      exact absurd hpe (by simp)

/-- Witness for C7 at a concrete state with one trace entry. -/
theorem state_trace_invariant_witness :
    (∀ p ∈ ((⟨fun _ _ => none, [(5, 3)]⟩ : StateM).traceBlock 6 4).verificationTrace,
        p.2 ≤ p.1) ∧
    (∀ t, ∀ b ∈ (⟨fun _ _ => none, [(5, 3)]⟩ : StateM).getTrace t,
      ∃ h0, h0 ≤ t ∧ (⟨fun _ _ => none, [(5, 3)]⟩ : StateM).lightStoreGet h0
          Status.verified = some b) :=
  state_trace_invariant ⟨fun _ _ => none, [(5, 3)]⟩ 6 4 (by decide) (by decide)

/-- C8: when the peer is a key of the constructor-supplied peer map,
`ProdEvidenceReporter::report` never reaches the panic of the `unwrap`
inside `rpc_client_for`, and returns either a receipt hash or an
`IoError`. -/
theorem evidenceReporter_report_no_panic (r : ProdEvidenceReporterM)
    (broadcast : Nat → EvidenceM → Except IoErrKind Nat) (e : EvidenceM)
    (peer : Nat) (hkey : ∃ en ∈ r.peerMap, en.1 = peer) :
    ∃ res, r.report broadcast e peer = some res ∧
      ((∃ hsh, res = Except.ok hsh) ∨ ∃ ioe, res = Except.error ioe) := by
  have hsome : (r.peerMap.find? (fun en => en.1 = peer)).isSome := by
    rw [List.find?_isSome]
    obtain ⟨en, hen, hp⟩ := hkey
    exact ⟨en, hen, by simp [hp]⟩
  obtain ⟨en, hfind⟩ := Option.isSome_iff_exists.mp hsome
  refine ⟨broadcast en.2 e, ?_, ?_⟩
  · simp [ProdEvidenceReporterM.report, ProdEvidenceReporterM.rpcClientFor,
      hfind]
  · cases hres : broadcast en.2 e with
    | ok v => exact Or.inl ⟨v, rfl⟩
    | error err => exact Or.inr ⟨err, rfl⟩

/-- Witness for C8 at a concrete one-entry peer map. -/
theorem evidenceReporter_report_no_panic_witness :
    ∃ res, (⟨[(7, 42)]⟩ : ProdEvidenceReporterM).report
        (fun _ _ => Except.ok 99)
        (EvidenceM.conflictingHeaders (1, 2) (3, 4)) 7 = some res ∧
      ((∃ hsh, res = Except.ok hsh) ∨ ∃ ioe, res = Except.error ioe) :=
  evidenceReporter_report_no_panic ⟨[(7, 42)]⟩ (fun _ _ => Except.ok 99)
    (EvidenceM.conflictingHeaders (1, 2) (3, 4)) 7
    ⟨(7, 42), List.mem_singleton.mpr rfl, rfl⟩

/-- C3: in `Supervisor::verify`, a verified block is accepted as trusted
(`trust_block`) only immediately after fork detection on that block ran
and returned `NotDetected`: in any event trace of the call, whatever comes
right before a `trustBlock vb` event is a `detectNotDetected vb` event.
In particular, when detection returns `Detected` or fails, that iteration
never emits `trustBlock`. -/
theorem supervisor_trust_only_after_notDetected (env : SupEnvM) (fuel : Nat)
    (pl : PeerListM) (height : Option Nat) (l1 l2 : List EventM)
    (vb : LightBlockM)
    (h : (supervisorVerify env fuel pl height).2.1 =
      l1 ++ EventM.trustBlock vb :: l2) :
    l1.getLast? = some (EventM.detectNotDetected vb) :=
  trustGuarded_last_before _ (supervisorVerify_trustGuarded env fuel pl height)
    l1 l2 vb h

/-- Witness for C3 at a concrete run whose trace is
`[detectNotDetected vb, trustBlock vb]`. -/
theorem supervisor_trust_only_after_notDetected_witness :
    List.getLast? [EventM.detectNotDetected ⟨10, 7, 0, 1⟩] =
      some (EventM.detectNotDetected ⟨10, 7, 0, 1⟩) :=
  supervisor_trust_only_after_notDetected
    ⟨fun _ _ => Except.ok ⟨10, 7, 0, 1⟩, fun _ => some ⟨1, 3, 0, 1⟩,
      fun _ _ _ => Except.ok ForkDetectionM.notDetected,
      fun _ _ => Except.ok 0⟩
    1 ⟨1, [2], [], []⟩ none [EventM.detectNotDetected ⟨10, 7, 0, 1⟩] []
    ⟨10, 7, 0, 1⟩ rfl

/-- C9: when primary verification succeeds (and a trust anchor exists) but
the witness list is empty, `Supervisor::verify` returns `NoWitnesses`;
the event trace is empty, so the fork detector was never invoked and the
verified block was not accepted as trusted. -/
theorem supervisor_noWitnesses_short_circuit (env : SupEnvM) (fuel : Nat)
    (pl : PeerListM) (height : Option Nat) (vb tb : LightBlockM)
    (h1 : env.primaryVerify pl.primary height = Except.ok vb)
    (h2 : env.latestTrusted pl.primary = some tb)
    (h3 : pl.witnesses = []) :
    supervisorVerify env (fuel + 1) pl height =
      (pl, [], Except.error ErrKind.noWitnesses) := by
  simp [supervisorVerify, h1, h2, h3]

/-- Witness for C9 at a concrete witness-free peer list. -/
theorem supervisor_noWitnesses_short_circuit_witness :
    supervisorVerify
        ⟨fun _ _ => Except.ok ⟨10, 7, 0, 1⟩, fun _ => some ⟨1, 3, 0, 1⟩,
          fun _ _ _ => Except.ok ForkDetectionM.notDetected,
          fun _ _ => Except.ok 0⟩ 1 ⟨1, [], [], []⟩ none =
      (⟨1, [], [], []⟩, [], Except.error ErrKind.noWitnesses) :=
  supervisor_noWitnesses_short_circuit _ 0 _ none ⟨10, 7, 0, 1⟩ ⟨1, 3, 0, 1⟩
    rfl rfl rfl

/-- C5: (a) when primary verification fails and a replacement primary
exists, the supervisor demotes the primary (`replace_faulty_primary`) and
retries the same verification request against the new peer list; (b) when
primary verification fails and no witness is left to promote, the
peer-list-exhaustion error (`NoWitnesses`) propagates to the caller;
(c) during fork processing, every `Timeout`/`Faulty` entry replaces that
witness via `replace_faulty_witness`, the final peer list being the fold
of those replacements. -/
theorem supervisor_failure_recovery (env : SupEnvM) (fuel : Nat)
    (pl pl' : PeerListM) (height : Option Nat) (e : ErrKind)
    (forks : List ForkM) (forked : List Nat) :
    (env.primaryVerify pl.primary height = Except.error e →
      pl.replaceFaultyPrimary = Except.ok pl' →
      supervisorVerify env (fuel + 1) pl height =
        ((supervisorVerify env fuel pl' height).1,
          EventM.replacePrimary pl.primary pl'.primary ::
            (supervisorVerify env fuel pl' height).2.1,
          (supervisorVerify env fuel pl' height).2.2)) ∧
    (env.primaryVerify pl.primary height = Except.error e →
      pl.witnesses = [] →
      supervisorVerify env (fuel + 1) pl height =
        (pl, [], Except.error ErrKind.noWitnesses)) ∧
    ((processForks env pl forks).2.2 = Except.ok forked →
      (processForks env pl forks).1 = forks.foldl witnessStep pl ∧
      (processForks env pl forks).2.1.filterMap replacedWitnessOf =
        forks.filterMap faultyTimeoutProvider) := by
  refine ⟨?_, ?_, ?_⟩
  · intro h1 h2
    simp [supervisorVerify, h1, h2]
  · intro h1 h2
    have h3 : pl.replaceFaultyPrimary = Except.error ErrKind.noWitnesses := by
      simp [PeerListM.replaceFaultyPrimary, h2]
    simp [supervisorVerify, h1, h3]
  · intro h
    exact processForks_peerlist env forks pl forked h

/-- Witness for C5: part (a) at a peer list with one witness to promote,
part (b) at a witness-free peer list, part (c) at a single `Timeout`
fork entry. -/
theorem supervisor_failure_recovery_witness :
    supervisorVerify
        ⟨fun _ _ => Except.error (ErrKind.ioErr IoErrKind.timeout),
          fun _ => none, fun _ _ _ => Except.ok ForkDetectionM.notDetected,
          fun _ _ => Except.ok 0⟩ 1 ⟨1, [2], [], []⟩ none =
      ((supervisorVerify
          ⟨fun _ _ => Except.error (ErrKind.ioErr IoErrKind.timeout),
            fun _ => none, fun _ _ _ => Except.ok ForkDetectionM.notDetected,
            fun _ _ => Except.ok 0⟩ 0 ⟨2, [], [], [1]⟩ none).1,
        EventM.replacePrimary 1 2 ::
          (supervisorVerify
            ⟨fun _ _ => Except.error (ErrKind.ioErr IoErrKind.timeout),
              fun _ => none, fun _ _ _ => Except.ok ForkDetectionM.notDetected,
              fun _ _ => Except.ok 0⟩ 0 ⟨2, [], [], [1]⟩ none).2.1,
        (supervisorVerify
          ⟨fun _ _ => Except.error (ErrKind.ioErr IoErrKind.timeout),
            fun _ => none, fun _ _ _ => Except.ok ForkDetectionM.notDetected,
            fun _ _ => Except.ok 0⟩ 0 ⟨2, [], [], [1]⟩ none).2.2) ∧
    supervisorVerify
        ⟨fun _ _ => Except.error (ErrKind.ioErr IoErrKind.timeout),
          fun _ => none, fun _ _ _ => Except.ok ForkDetectionM.notDetected,
          fun _ _ => Except.ok 0⟩ 1 ⟨1, [], [], []⟩ none =
      (⟨1, [], [], []⟩, [], Except.error ErrKind.noWitnesses) ∧
    ((processForks
        ⟨fun _ _ => Except.error (ErrKind.ioErr IoErrKind.timeout),
          fun _ => none, fun _ _ _ => Except.ok ForkDetectionM.notDetected,
          fun _ _ => Except.ok 0⟩ ⟨1, [5], [6], []⟩
        [ForkM.timeout 5 (ErrKind.ioErr IoErrKind.timeout)]).1 =
      List.foldl witnessStep ⟨1, [5], [6], []⟩
        [ForkM.timeout 5 (ErrKind.ioErr IoErrKind.timeout)] ∧
      (processForks
        ⟨fun _ _ => Except.error (ErrKind.ioErr IoErrKind.timeout),
          fun _ => none, fun _ _ _ => Except.ok ForkDetectionM.notDetected,
          fun _ _ => Except.ok 0⟩ ⟨1, [5], [6], []⟩
        [ForkM.timeout 5 (ErrKind.ioErr IoErrKind.timeout)]).2.1.filterMap
          replacedWitnessOf =
        List.filterMap faultyTimeoutProvider
          [ForkM.timeout 5 (ErrKind.ioErr IoErrKind.timeout)]) := by
  refine ⟨?_, ?_, ?_⟩
  · exact (supervisor_failure_recovery _ 0 ⟨1, [2], [], []⟩ ⟨2, [], [], [1]⟩
      none (ErrKind.ioErr IoErrKind.timeout) [] []).1 rfl rfl
  · exact (supervisor_failure_recovery _ 0 ⟨1, [], [], []⟩ ⟨1, [], [], []⟩
      none (ErrKind.ioErr IoErrKind.timeout) [] []).2.1 rfl rfl
  · exact (supervisor_failure_recovery _ 0 ⟨1, [5], [6], []⟩ ⟨1, [5], [6], []⟩
      none (ErrKind.ioErr IoErrKind.timeout)
      [ForkM.timeout 5 (ErrKind.ioErr IoErrKind.timeout)] []).2.2 rfl

/-- C4: whenever `Supervisor::verify` returns the `ForkDetected` error
(provided the fork detector itself never fails with `ForkDetected`, which
only the supervisor raises), the error carries exactly the providers of
the `Forked` entries of the detection it arose from, that list is
nonempty, and the event trace of the call contains — after the detection
event and before the return — exactly one evidence report per `Forked`
entry, addressed to the witness's provider and carrying conflicting-headers
evidence built from the primary's and the witness's signed headers. -/
theorem supervisor_forkDetected_reports (env : SupEnvM)
    (hdet : ∀ vb tb ws qs,
      env.runDetector vb tb ws ≠ Except.error (ErrKind.forkDetected qs)) :
    ∀ (fuel : Nat) (pl : PeerListM) (height : Option Nat) (ps : List Nat),
      (supervisorVerify env fuel pl height).2.2 =
        Except.error (ErrKind.forkDetected ps) →
      ps ≠ [] ∧
      ∃ pre vb forks evs,
        (supervisorVerify env fuel pl height).2.1 =
          pre ++ EventM.detectDetected vb forks :: evs ∧
        ps = forks.filterMap forkedProvider ∧
        evs.filterMap reportOf = forks.filterMap expectedReport := by
  intro fuel
  induction fuel with
  | zero =>
    intro pl height ps h
    simp [supervisorVerify] at h
  | succ fuel ih =>
    intro pl height ps h
    cases hpv : env.primaryVerify pl.primary height with
    | error e =>
      cases hrp : pl.replaceFaultyPrimary with
      | error e2 =>
        have he2 : e2 = ErrKind.noWitnesses := by
          unfold PeerListM.replaceFaultyPrimary at hrp
          cases hw : pl.witnesses with
          | nil =>
            rw [hw] at hrp
            simp only [Except.error.injEq] at hrp
            exact hrp.symm
          | cons a l => rw [hw] at hrp; simp at hrp
        have heq : (supervisorVerify env (fuel + 1) pl height).2.2 =
            Except.error e2 := by
          simp [supervisorVerify, hpv, hrp]
        rw [heq, he2] at h
        simp at h
      | ok pl' =>
        have heq2 : (supervisorVerify env (fuel + 1) pl height).2.2 =
            (supervisorVerify env fuel pl' height).2.2 := by
          simp [supervisorVerify, hpv, hrp]
        have heq1 : (supervisorVerify env (fuel + 1) pl height).2.1 =
            EventM.replacePrimary pl.primary pl'.primary ::
              (supervisorVerify env fuel pl' height).2.1 := by
          simp [supervisorVerify, hpv, hrp]
        rw [heq2] at h
        obtain ⟨hne, pre, vb, forks, evs, htr, hps, hrep⟩ := ih pl' height ps h
        exact ⟨hne, EventM.replacePrimary pl.primary pl'.primary :: pre, vb,
          forks, evs, by rw [heq1, htr]; rfl, hps, hrep⟩
    | ok vb0 =>
      cases hlt : env.latestTrusted pl.primary with
      | none =>
        have heq : (supervisorVerify env (fuel + 1) pl height).2.2 =
            Except.error (ErrKind.noTrustedState Status.trusted) := by
          simp [supervisorVerify, hpv, hlt]
        rw [heq] at h
        simp at h
      | some tb =>
        by_cases hw : pl.witnesses.isEmpty = true
        · have heq : (supervisorVerify env (fuel + 1) pl height).2.2 =
              Except.error ErrKind.noWitnesses := by
            simp [supervisorVerify, hpv, hlt, hw]
          rw [heq] at h
          simp at h
        · cases hdr : env.runDetector vb0 tb pl.witnesses with
          | error e =>
            have heq : (supervisorVerify env (fuel + 1) pl height).2.2 =
                Except.error e := by
              simp [supervisorVerify, hpv, hlt, hw, hdr]
            rw [heq] at h
            simp only [Except.error.injEq] at h
            rw [h] at hdr
            exact absurd hdr (hdet vb0 tb pl.witnesses ps)
          | ok outcome =>
            cases outcome with
            | notDetected =>
              have heq : (supervisorVerify env (fuel + 1) pl height).2.2 =
                  Except.ok vb0 := by
                simp [supervisorVerify, hpv, hlt, hw, hdr]
              rw [heq] at h
              simp at h
            | detected forks =>
              cases hpf : (processForks env pl forks).2.2 with
              | error e =>
                have heq : (supervisorVerify env (fuel + 1) pl height).2.2 =
                    Except.error e := by
                  simp [supervisorVerify, hpv, hlt, hw, hdr, hpf]
                rw [heq] at h
                simp only [Except.error.injEq] at h
                obtain ⟨ioe, hioe⟩ := processForks_error_ioErr env forks pl e hpf
                rw [h] at hioe
                simp at hioe
              | ok forked =>
                by_cases hfk : forked.isEmpty = true
                · have heq2 : (supervisorVerify env (fuel + 1) pl height).2.2 =
                      (supervisorVerify env fuel
                        (processForks env pl forks).1 height).2.2 := by
                    simp [supervisorVerify, hpv, hlt, hw, hdr, hpf, hfk]
                  have heq1 : (supervisorVerify env (fuel + 1) pl height).2.1 =
                      EventM.detectDetected vb0 forks ::
                        ((processForks env pl forks).2.1 ++
                          (supervisorVerify env fuel
                            (processForks env pl forks).1 height).2.1) := by
                    simp [supervisorVerify, hpv, hlt, hw, hdr, hpf, hfk]
                  rw [heq2] at h
                  obtain ⟨hne, pre, vb, forks2, evs, htr, hps, hrep⟩ :=
                    ih _ height ps h
                  refine ⟨hne, EventM.detectDetected vb0 forks ::
                    ((processForks env pl forks).2.1 ++ pre), vb, forks2, evs,
                    ?_, hps, hrep⟩
                  rw [heq1, htr]
                  simp [List.append_assoc]
                · have heq2 : (supervisorVerify env (fuel + 1) pl height).2.2 =
                      Except.error (ErrKind.forkDetected forked) := by
                    simp [supervisorVerify, hpv, hlt, hw, hdr, hpf, hfk]
                  have heq1 : (supervisorVerify env (fuel + 1) pl height).2.1 =
                      EventM.detectDetected vb0 forks ::
                        (processForks env pl forks).2.1 := by
                    simp [supervisorVerify, hpv, hlt, hw, hdr, hpf, hfk]
                  rw [heq2] at h
                  simp only [Except.error.injEq, ErrKind.forkDetected.injEq] at h
                  subst h
                  obtain ⟨h1, h2⟩ := processForks_ok_spec env forks pl forked hpf
                  have hne : forked ≠ [] := by
                    intro hnil
                    subst hnil
                    simp at hfk
                  exact ⟨hne, [], vb0, forks, (processForks env pl forks).2.1,
                    by rw [heq1]; rfl, h1, h2⟩

/-- Witness for C4 at a concrete run: one hash-distinct witness whose
`Forked` entry is reported and whose provider is carried by the
`ForkDetected` error. -/
theorem supervisor_forkDetected_reports_witness :
    ([3] : List Nat) ≠ [] ∧
    ∃ pre vb forks evs,
      (supervisorVerify
          ⟨fun _ _ => Except.ok ⟨10, 7, 0, 1⟩, fun _ => some ⟨1, 3, 0, 1⟩,
            fun _ _ _ => Except.ok (ForkDetectionM.detected
              [ForkM.forked ⟨10, 7, 0, 1⟩ ⟨10, 8, 5, 3⟩]),
            fun _ _ => Except.ok 0⟩ 1 ⟨1, [2], [], []⟩ none).2.1 =
        pre ++ EventM.detectDetected vb forks :: evs ∧
      ([3] : List Nat) = forks.filterMap forkedProvider ∧
      evs.filterMap reportOf = forks.filterMap expectedReport :=
  supervisor_forkDetected_reports
    ⟨fun _ _ => Except.ok ⟨10, 7, 0, 1⟩, fun _ => some ⟨1, 3, 0, 1⟩,
      fun _ _ _ => Except.ok (ForkDetectionM.detected
        [ForkM.forked ⟨10, 7, 0, 1⟩ ⟨10, 8, 5, 3⟩]),
      fun _ _ => Except.ok 0⟩
    (fun _ _ _ _ => by simp) 1 ⟨1, [2], [], []⟩ none [3] rfl

/-- Witness for C2 (amended) at the concrete run of the counterexample. -/
theorem forkDetector_scratch_store_amended_witness :
    (⟨[], [(⟨1, 3, 0, 1⟩, Status.verified),
        (⟨10, 8, 5, 3⟩, Status.unverified)]⟩ : WitnessAudit).storeAtFetch =
      ([] : MemStore) ∧
    ((⟨[], [(⟨1, 3, 0, 1⟩, Status.verified),
        (⟨10, 8, 5, 3⟩, Status.unverified)]⟩ : WitnessAudit).seeded = [] ∨
      ∃ wb, (⟨[], [(⟨1, 3, 0, 1⟩, Status.verified),
        (⟨10, 8, 5, 3⟩, Status.unverified)]⟩ : WitnessAudit).seeded =
          [((⟨1, 3, 0, 1⟩ : LightBlockM), Status.verified),
            (wb, Status.unverified)]) := by
  exact forkDetector_scratch_store_amended (fun h => h) ⟨10, 7, 0, 1⟩
    ⟨1, 3, 0, 1⟩
    [⟨fun _ => Except.ok ⟨10, 8, 5, 3⟩, fun _ _ => Except.ok ⟨10, 8, 5, 3⟩⟩]
    ⟨[], [(⟨1, 3, 0, 1⟩, Status.verified), (⟨10, 8, 5, 3⟩, Status.unverified)]⟩
    (List.mem_singleton.mpr rfl)

end Tendermint
